import Mathlib

set_option maxRecDepth 100000

/-!
# Trade Pulse Tracker — verification of the tick ingestion core

A shallow embedding of the tick-ingestion pipeline of the Trade Pulse
Tracker repository:

* the wire codec (pipe-delimited lines produced by the producer's
  formatTick and consumed by the ingestor's MessageValidator),
* the stateful per-instrument message validator
  (packages/ingestor/src/message-validator.ts),
* the newline framer of the TCP server
  (packages/ingestor/src/tcp-server.ts, setupClientEventHandlers),
* the queueing TCP sender of the producer
  (packages/tick-generator/src/tcp-sender.ts), and
* the enrichment / sequencing step of the ingestor service
  (ingestor-service.ts, enrichTick).

Strings of the TypeScript source are modelled as List Char; JavaScript
numbers are modelled as exact rationals (every finite double is a
rational whose denominator is a power of two, hence has a finite
decimal expansion).  Wall-clock reads (Date.now()) are passed in as
explicit arguments.  Stateful classes are modelled by explicit state
passing.
-/

namespace TradePulse

/-! ## Definitions: the shallow embedding of the source -/

/-- Whitespace as recognised by trimming (space, tab, CR, LF). -/
def isWsChar (c : Char) : Bool :=
  c = ' ' || c = '\t' || c = '\n' || c = '\r'

/-- ASCII decimal digit. -/
def isDigitC (c : Char) : Bool :=
  '0' ≤ c && c ≤ '9'

/-- Numeric value of a digit character. -/
def charDigitVal (c : Char) : ℕ :=
  c.toNat - '0'.toNat

/-- Little-endian base-ten digits, computed with explicit fuel so that
the definition is structurally recursive (and hence evaluates inside
the kernel); n itself always is enough fuel. -/
def natDigitsAux : ℕ → ℕ → List ℕ
  | 0, _ => []
  | _ + 1, 0 => []
  | fuel + 1, n + 1 => (n + 1) % 10 :: natDigitsAux fuel ((n + 1) / 10)

/-- Little-endian base-ten digits of a natural number. -/
def natDigitsLE (n : ℕ) : List ℕ := natDigitsAux n n

/-- Big-endian decimal digit characters of a natural number
(JavaScript Number.prototype.toString on a nonnegative integer). -/
def natChars (n : ℕ) : List Char :=
  if n = 0 then ['0'] else ((natDigitsLE n).map Nat.digitChar).reverse

/-- Value of a big-endian digit-character string, folding left to right
with an accumulator (the shape of all parsing loops modelled here). -/
def natOfChars (l : List Char) : ℕ :=
  l.foldl (fun a c => a * 10 + charDigitVal c) 0

/-- JavaScript String.prototype.trim: drop whitespace from both ends. -/
def trimC (l : List Char) : List Char :=
  ((l.dropWhile isWsChar).reverse.dropWhile isWsChar).reverse

/-- Model of rawMessage.replace removing every LF together with an
immediately preceding CR; a CR not followed by LF is kept, exactly as
the regular expression in validateMessage does. -/
def stripNewlines : List Char → List Char
  | [] => []
  | [c] => if c = '\n' then [] else [c]
  | c :: c₂ :: cs =>
      if c = '\n' then stripNewlines (c₂ :: cs)
      else if c = '\r' ∧ c₂ = '\n' then stripNewlines cs
      else c :: stripNewlines (c₂ :: cs)

/-- JavaScript String.prototype.split with a one-character separator. -/
def splitOnC (sep : Char) : List Char → List (List Char)
  | [] => [[]]
  | c :: cs =>
      match splitOnC sep cs with
      | [] => [[c]]
      | h :: t => if c = sep then [] :: h :: t else (c :: h) :: t

/-- JavaScript Array.prototype.flatten with a one-character separator. -/
def joinC (sep : Char) : List (List Char) → List Char
  | [] => []
  | [f] => f
  | f :: fs => f ++ sep :: joinC sep fs

/-- Smallest exponent e with den ∣ 10 ^ e, when one exists (it does
whenever den = 2 ^ a * 5 ^ b, and then e ≤ den). -/
def decExp (den : ℕ) : Option ℕ :=
  (List.range (den + 1)).find? (fun e => decide (den ∣ 10 ^ e))

/-- Number.prototype.toString for a rational with a finite decimal
expansion (the case of every finite double). -/
def ratToChars (q : ℚ) : List Char :=
  let sign : List Char := if q < 0 then ['-'] else []
  match decExp q.den with
  | none => ['0']
  | some e =>
      let m := q.num.natAbs * (10 ^ e / q.den)
      if e = 0 then sign ++ natChars m
      else
        let ds := natChars m
        let ds₂ := List.replicate (e + 1 - ds.length) '0' ++ ds
        sign ++ ds₂.take (ds₂.length - e) ++ '.' :: ds₂.drop (ds₂.length - e)

/-- Optional leading sign of a JavaScript numeric literal. -/
def parseSign : List Char → Bool × List Char
  | '-' :: r => (true, r)
  | '+' :: r => (false, r)
  | l => (false, l)

/-- Exponent suffix after an e/E marker; an absent or digitless
exponent contributes a factor of one (parseFloat keeps the longest
valid numeric head of the string). -/
def parseExpPart (l : List Char) : ℤ :=
  let s := parseSign l
  let ds := s.2.takeWhile isDigitC
  if ds = [] then 0
  else if s.1 then -(natOfChars ds : ℤ) else (natOfChars ds : ℤ)

/-- JavaScript parseFloat on the decimal forms sign, integer digits,
optional fraction, optional exponent; none models NaN. -/
def parseFloatC (l : List Char) : Option ℚ :=
  let s := parseSign (l.dropWhile isWsChar)
  let ip := s.2.takeWhile isDigitC
  let r₂ := s.2.dropWhile isDigitC
  let fr : List Char × List Char :=
    match r₂ with
    | '.' :: rest => (rest.takeWhile isDigitC, rest.dropWhile isDigitC)
    | _ => ([], r₂)
  if ip = [] ∧ fr.1 = [] then none
  else
    let mant : ℚ := (natOfChars ip : ℚ) + (natOfChars fr.1 : ℚ) / 10 ^ fr.1.length
    let ex : ℤ :=
      match fr.2 with
      | c :: rest => if c = 'e' ∨ c = 'E' then parseExpPart rest else 0
      | [] => 0
    let v := mant * (10 : ℚ) ^ ex
    some (if s.1 then -v else v)

/-- JavaScript parseInt with radix 10; none models NaN. -/
def parseIntC (l : List Char) : Option ℤ :=
  let s := parseSign (l.dropWhile isWsChar)
  let ds := s.2.takeWhile isDigitC
  if ds = [] then none
  else some (if s.1 then -(natOfChars ds : ℤ) else (natOfChars ds : ℤ))

/-- Number.prototype.toString including the sign (timestamps and other
integers interpolated into messages). -/
def intToChars (i : ℤ) : List Char :=
  if i < 0 then '-' :: natChars i.natAbs else natChars i.natAbs

/-- Parsed price tick (interface PriceTick of the ingestor and of the
tick generator: ric, price, timestamp, optional volume / bid / ask). -/
structure PriceTick where
  ric : List Char
  price : ℚ
  timestamp : ℤ
  volume : Option ℚ := none
  bid : Option ℚ := none
  ask : Option ℚ := none
deriving DecidableEq

/-- interface ValidationResult of the ingestor. -/
structure ValidationResult where
  isValid : Bool
  tick : Option PriceTick
  errors : List String
deriving DecidableEq

/-- interface RawMessage: an undecoded line with transport metadata. -/
structure RawMessage where
  data : List Char
  clientId : String
  receivedAt : ℤ
deriving DecidableEq

/-- The validation section of IngestorConfig (loadConfiguration defaults:
permissive mode, deviation 0.1, age limit 300000 ms). -/
structure IngestorConfig where
  strictMode : Bool
  maxPriceDeviation : ℚ
  maxTimestampAge : ℤ
deriving DecidableEq

/-- Defaults of loadConfiguration in packages/ingestor/src/index.ts. -/
def defaultConfig : IngestorConfig :=
  { strictMode := false, maxPriceDeviation := 1 / 10, maxTimestampAge := 300000 }

/-- The lastPrices map of MessageValidator, in insertion order as a
JavaScript Map. -/
abbrev PriceMap := List (List Char × ℚ)

/-- Map.prototype.get. -/
def lookupPrice (ric : List Char) : PriceMap → Option ℚ
  | [] => none
  | (k, v) :: t => if k = ric then some v else lookupPrice ric t

/-- Map.prototype.set: replace in place or append. -/
def setPrice (ric : List Char) (p : ℚ) : PriceMap → PriceMap
  | [] => [(ric, p)]
  | (k, v) :: t => if k = ric then (ric, p) :: t else (k, v) :: setPrice ric p t

/-- Character class of the RIC regular expression, A-Z a-z 0-9 dot and
equals sign. -/
def isRicChar (c : Char) : Bool :=
  ('A' ≤ c && c ≤ 'Z') || ('a' ≤ c && c ≤ 'z') || ('0' ≤ c && c ≤ '9')
    || c = '.' || c = '='

/-- validateRic: trimmed, length 2 to 20, character class, uppercased. -/
def validateRic (ricStr : List Char) : Option (List Char) × List String :=
  if trimC ricStr = [] then (none, ["RIC is required and cannot be empty"])
  else
    let ric := trimC ricStr
    if ric.length < 2 then (none, ["RIC too short: " ++ String.mk ric])
    else if ric.length > 20 then (none, ["RIC too long: " ++ String.mk ric])
    else if !ric.all isRicChar then
      (none, ["Invalid RIC format: " ++ String.mk ric
        ++ ". Only alphanumeric characters, dots, and equals signs are allowed"])
    else (some (ric.map Char.toUpper), [])

/-- validatePrice: required, numeric, positive, below the sanity ceiling. -/
def validatePrice (priceStr : List Char) (fieldName : String) :
    Option ℚ × List String :=
  if trimC priceStr = [] then
    (none, [fieldName ++ " is required and cannot be empty"])
  else
    match parseFloatC (trimC priceStr) with
    | none => (none, ["Invalid " ++ fieldName ++ ": " ++ String.mk priceStr
        ++ ". Must be a valid number"])
    | some price =>
        if price ≤ 0 then
          (none, ["Invalid " ++ fieldName ++ ": " ++ String.mk (ratToChars price)
            ++ ". Must be greater than 0"])
        else if price > 1000000 then
          (none, ["Invalid " ++ fieldName ++ ": " ++ String.mk (ratToChars price)
            ++ ". Suspiciously high value"])
        else (some price, [])

/-- The 2020-01-01 epoch-millisecond bound of validateTimestamp. -/
def minTimestamp : ℤ := 1577836800000

/-- The 2030-01-01 epoch-millisecond bound of validateTimestamp. -/
def maxTimestamp : ℤ := 1893456000000

/-- validateTimestamp: required, integer, inside the 2020 to 2030
window, not older than the configured age, at most one minute ahead. -/
def validateTimestamp (cfg : IngestorConfig) (now : ℤ) (timestampStr : List Char) :
    Option ℤ × List String :=
  if trimC timestampStr = [] then
    (none, ["Timestamp is required and cannot be empty"])
  else
    match parseIntC (trimC timestampStr) with
    | none => (none, ["Invalid timestamp: " ++ String.mk timestampStr
        ++ ". Must be a valid Unix timestamp"])
    | some timestamp =>
        if timestamp < minTimestamp ∨ timestamp > maxTimestamp then
          (none, ["Invalid timestamp: " ++ String.mk (intToChars timestamp)
            ++ ". Must be between " ++ String.mk (intToChars minTimestamp)
            ++ " and " ++ String.mk (intToChars maxTimestamp)])
        else if now - timestamp > cfg.maxTimestampAge then
          (none, ["Timestamp too old: " ++ String.mk (intToChars timestamp)
            ++ ". Age: " ++ String.mk (intToChars (now - timestamp))
            ++ "ms, Max allowed: " ++ String.mk (intToChars cfg.maxTimestampAge) ++ "ms"])
        else if timestamp > now + 60000 then
          (none, ["Timestamp too far in future: " ++ String.mk (intToChars timestamp)
            ++ ". Current time: " ++ String.mk (intToChars now)])
        else (some timestamp, [])

/-- validateOptionalNumber: empty means absent; otherwise numeric,
non-negative, below the per-field sanity ceiling. -/
def validateOptionalNumber (valueStr : List Char) (fieldName : String) :
    Option ℚ × List String :=
  if trimC valueStr = [] then (none, [])
  else
    match parseFloatC (trimC valueStr) with
    | none => (none, ["Invalid " ++ fieldName ++ ": " ++ String.mk valueStr
        ++ ". Must be a valid number or empty"])
    | some value =>
        if value < 0 then
          (none, ["Invalid " ++ fieldName ++ ": " ++ String.mk (ratToChars value)
            ++ ". Cannot be negative"])
        else if fieldName = "volume" ∧ value > 1000000000 then
          (none, ["Invalid " ++ fieldName ++ ": " ++ String.mk (ratToChars value)
            ++ ". Suspiciously high volume"])
        else if (fieldName = "bid" ∨ fieldName = "ask") ∧ value > 1000000 then
          (none, ["Invalid " ++ fieldName ++ ": " ++ String.mk (ratToChars value)
            ++ ". Suspiciously high price"])
        else (some value, [])

/-- validateBusinessRules: bid/ask spread, price inside the spread,
price-deviation anomaly (an error only in strict mode), zero volume in
strict mode.  Returns the errors pushed into the accumulator. -/
def validateBusinessRules (cfg : IngestorConfig) (lastPrices : PriceMap)
    (tick : PriceTick) : List String :=
  let spreadErrs :=
    match tick.bid, tick.ask with
    | some b, some a =>
        if b > a then
          ["Invalid bid/ask spread: bid " ++ String.mk (ratToChars b)
            ++ " > ask " ++ String.mk (ratToChars a)]
        else []
    | _, _ => []
  let insideErrs :=
    match tick.bid, tick.ask with
    | some b, some a =>
        if tick.price < b ∨ tick.price > a then
          ["Price " ++ String.mk (ratToChars tick.price)
            ++ " outside bid/ask spread [" ++ String.mk (ratToChars b)
            ++ ", " ++ String.mk (ratToChars a) ++ "]"]
        else []
    | _, _ => []
  let deviationErrs :=
    match lookupPrice tick.ric lastPrices with
    | some lastPrice =>
        if |tick.price - lastPrice| / lastPrice > cfg.maxPriceDeviation
            ∧ cfg.strictMode then
          ["Suspicious price change: deviation from last price "
            ++ String.mk (ratToChars lastPrice) ++ " to "
            ++ String.mk (ratToChars tick.price)]
        else []
    | none => []
  let volumeErrs :=
    if tick.volume = some 0 ∧ cfg.strictMode then
      ["Zero volume trades are not allowed in strict mode"]
    else []
  spreadErrs ++ insideErrs ++ deviationErrs ++ volumeErrs

/-- The structural phase of validateMessage, up to its early return:
clean the line, require a nonempty message, split on the pipe
delimiter into exactly six parts, validate every field, and build the
tick; any accumulated errors are a hard failure before the business
rules run. -/
def parseTick (cfg : IngestorConfig) (now : ℤ) (rawMessage : List Char) :
    Except (List String) PriceTick :=
  let cleanMessage := trimC (stripNewlines rawMessage)
  if cleanMessage = [] then .error ["Empty message received"]
  else
    let parts := splitOnC '|' cleanMessage
    if parts.length = 6 then
      let ricR := validateRic (parts.getD 0 [])
      let priceR := validatePrice (parts.getD 1 []) "price"
      let tsR := validateTimestamp cfg now (parts.getD 2 [])
      let volR := validateOptionalNumber (parts.getD 3 []) "volume"
      let bidR := validateOptionalNumber (parts.getD 4 []) "bid"
      let askR := validateOptionalNumber (parts.getD 5 []) "ask"
      let errors := ricR.2 ++ priceR.2 ++ tsR.2 ++ volR.2 ++ bidR.2 ++ askR.2
      if errors = [] then
        .ok { ric := ricR.1.getD [], price := priceR.1.getD 0,
              timestamp := tsR.1.getD 0,
              volume := volR.1, bid := bidR.1, ask := askR.1 }
      else .error errors
    else
      .error ["Invalid message format. Expected 6 parts, got "
        ++ String.mk (natChars parts.length) ++ ". Message: "
        ++ String.mk cleanMessage]

instance {ε α : Type} [DecidableEq ε] [DecidableEq α] :
    DecidableEq (Except ε α) := fun a b =>
  match a, b with
  | .error e₁, .error e₂ => decidable_of_iff (e₁ = e₂) (by simp)
  | .ok x, .ok y => decidable_of_iff (x = y) (by simp)
  | .error _, .ok _ => isFalse (by simp)
  | .ok _, .error _ => isFalse (by simp)

/-- validateMessage: the structural phase, then the business rules,
with lastPrices updated to the accepted price only when no error at
all was recorded.  Returns the ValidationResult together with the new
lastPrices map. -/
def validateMessage (cfg : IngestorConfig) (lastPrices : PriceMap) (now : ℤ)
    (rawMessage : List Char) : ValidationResult × PriceMap :=
  match parseTick cfg now rawMessage with
  | .error errors => ({ isValid := false, tick := none, errors := errors }, lastPrices)
  | .ok tick =>
      let errors₂ := validateBusinessRules cfg lastPrices tick
      if errors₂ = [] then
        ({ isValid := true, tick := some tick, errors := [] },
          setPrice tick.ric tick.price lastPrices)
      else
        ({ isValid := false, tick := none, errors := errors₂ }, lastPrices)

/-- Rendering of one optional field: the value when present, the empty
field when absent (tick.volume?.toString() or the empty string). -/
def optField : Option ℚ → List Char
  | some v => ratToChars v
  | none => []

/-- formatTick: the six fields joined with the pipe delimiter; an
absent optional field renders as the empty field. -/
def formatTick (tick : PriceTick) : List Char :=
  joinC '|'
    [tick.ric,
     ratToChars tick.price,
     intToChars tick.timestamp,
     optField tick.volume,
     optField tick.bid,
     optField tick.ask]

/-- The extraction loop of the data handler: repeatedly slice the
buffer at the next newline; the first component lists the complete
lines in order, the second is the leftover buffer (no newline in it). -/
def extractLines : List Char → List (List Char) × List Char
  | [] => ([], [])
  | c :: cs =>
      if c = '\n' then
        let r := extractLines cs
        ([] :: r.1, r.2)
      else
        match extractLines cs with
        | ([], b) => ([], c :: b)
        | (l :: ls, b) => ((c :: l) :: ls, b)

/-- A complete line becomes a record only when nonempty after
trimming; it is forwarded trimmed (message.trim() in handleMessage's
caller). -/
def emitRecord (l : List Char) : Option (List Char) :=
  let t := trimC l
  if t = [] then none else some t

/-- The text half of one socket data event, after data.toString() has
already decoded the chunk: append the decoded text to the session's
string buffer and run the extraction loop; returns the emitted records
and the new buffer. -/
def processData (buffer data : List Char) : List (List Char) × List Char :=
  let r := extractLines (buffer ++ data)
  (r.1.filterMap emitRecord, r.2)

/-- A sequence of already-decoded text chunks on one connection (the
character-boundary view; the byte-level events are feedByteChunks
below). -/
def feedChunks (buffer : List Char) : List (List Char) → List (List Char) × List Char
  | [] => ([], buffer)
  | d :: ds =>
      let r := processData buffer d
      let rest := feedChunks r.2 ds
      (r.1 ++ rest.1, rest.2)

/-- A UTF-8 continuation byte. -/
def isContByte (b : ℕ) : Bool := 0x80 ≤ b && b ≤ 0xBF

/-- The WHATWG UTF-8 decoder with replacement, the semantics of
Buffer.prototype.toString on a utf8 buffer (the source never installs
setEncoding, so every chunk is decoded independently): an invalid or
truncated sequence becomes one U+FFFD per maximal subpart, and a
sequence still pending at the end of the chunk becomes one U+FFFD.
Bytes are naturals below 256; the explicit fuel (the chunk length
always suffices, as every step consumes at least one byte) keeps the
recursion structural so that it evaluates inside the kernel. -/
def utf8DecodeAux : ℕ → List ℕ → List Char
  | 0, _ => []
  | _ + 1, [] => []
  | fuel + 1, b :: bs =>
      if b ≤ 0x7F then Char.ofNat b :: utf8DecodeAux fuel bs
      else if 0xC2 ≤ b && b ≤ 0xDF then
        match bs with
        | [] => ['�']
        | b₁ :: bs₁ =>
            if isContByte b₁ then
              Char.ofNat ((b - 0xC0) * 0x40 + (b₁ - 0x80)) :: utf8DecodeAux fuel bs₁
            else '�' :: utf8DecodeAux fuel bs
      else if 0xE0 ≤ b && b ≤ 0xEF then
        let lo := if b = 0xE0 then 0xA0 else 0x80
        let hi := if b = 0xED then 0x9F else 0xBF
        match bs with
        | [] => ['�']
        | b₁ :: bs₁ =>
            if lo ≤ b₁ && b₁ ≤ hi then
              match bs₁ with
              | [] => ['�']
              | b₂ :: bs₂ =>
                  if isContByte b₂ then
                    Char.ofNat ((b - 0xE0) * 0x1000 + (b₁ - 0x80) * 0x40
                      + (b₂ - 0x80)) :: utf8DecodeAux fuel bs₂
                  else '�' :: utf8DecodeAux fuel bs₁
            else '�' :: utf8DecodeAux fuel bs
      else if 0xF0 ≤ b && b ≤ 0xF4 then
        let lo := if b = 0xF0 then 0x90 else 0x80
        let hi := if b = 0xF4 then 0x8F else 0xBF
        match bs with
        | [] => ['�']
        | b₁ :: bs₁ =>
            if lo ≤ b₁ && b₁ ≤ hi then
              match bs₁ with
              | [] => ['�']
              | b₂ :: bs₂ =>
                  if isContByte b₂ then
                    match bs₂ with
                    | [] => ['�']
                    | b₃ :: bs₃ =>
                        if isContByte b₃ then
                          Char.ofNat ((b - 0xF0) * 0x40000 + (b₁ - 0x80) * 0x1000
                            + (b₂ - 0x80) * 0x40 + (b₃ - 0x80))
                            :: utf8DecodeAux fuel bs₃
                        else '�' :: utf8DecodeAux fuel bs₂
                  else '�' :: utf8DecodeAux fuel bs₁
            else '�' :: utf8DecodeAux fuel bs
      else '�' :: utf8DecodeAux fuel bs

/-- data.toString() on one byte chunk. -/
def utf8Decode (bs : List ℕ) : List Char := utf8DecodeAux bs.length bs

/-- One socket data event as the source performs it: the byte chunk is
decoded by data.toString() on its own and the resulting text appended
to the session buffer. -/
def processBytes (buffer : List Char) (data : List ℕ) :
    List (List Char) × List Char :=
  processData buffer (utf8Decode data)

/-- A sequence of byte-level data events on one connection. -/
def feedByteChunks (buffer : List Char) :
    List (List ℕ) → List (List Char) × List Char
  | [] => ([], buffer)
  | d :: ds =>
      let r := processBytes buffer d
      let rest := feedByteChunks r.2 ds
      (r.1 ++ rest.1, rest.2)

/-- Observable state of TcpSender: the connected flag, the outbound
messageQueue and the sequence of socket writes performed so far. -/
structure SenderState where
  isConnected : Bool
  messageQueue : List (List Char)
  written : List (List Char)
deriving DecidableEq

/-- sendTick: encode via formatTick; write message plus newline when
connected, otherwise append the message to the queue and return
without error. -/
def sendTick (st : SenderState) (tick : PriceTick) : SenderState :=
  let message := formatTick tick
  if st.isConnected then
    { st with written := st.written ++ [message ++ ['\n']] }
  else
    { st with messageQueue := st.messageQueue ++ [message] }

/-- The write loop of flushMessageQueue: each queued message is
written (with its newline) only if the socket is still present and
connected at that iteration; connUp gives that per-iteration flag. -/
def flushWrites (connUp : ℕ → Bool) : ℕ → List (List Char) → List (List Char)
  | _, [] => []
  | i, msg :: rest =>
      if connUp i then (msg ++ ['\n']) :: flushWrites connUp (i + 1) rest
      else flushWrites connUp (i + 1) rest

/-- flushMessageQueue: early return on an empty queue; otherwise write
what the loop can and reset messageQueue to the empty array. -/
def flushMessageQueue (connUp : ℕ → Bool) (st : SenderState) : SenderState :=
  if st.messageQueue = [] then st
  else
    { st with
      messageQueue := [],
      written := st.written ++ flushWrites connUp 0 st.messageQueue }

/-- The connect handler on success: mark connected, then flush the
queued messages. -/
def connectSucceed (connUp : ℕ → Bool) (st : SenderState) : SenderState :=
  flushMessageQueue connUp { st with isConnected := true }

/-- interface EnrichedTick: the tick fields plus server-side metadata. -/
structure EnrichedTick where
  ric : List Char
  price : ℚ
  timestamp : ℤ
  volume : Option ℚ
  bid : Option ℚ
  ask : Option ℚ
  receivedAt : ℤ
  clientId : String
  sequenceId : List Char
  latencyMs : Option ℤ
  validationPassed : Bool
  validationErrors : List String
deriving DecidableEq

/-- enrichTick: increment sequenceCounter, stamp receipt metadata,
build sequenceId as the Date.now() reading and the counter joined by a
dash, and set latencyMs to receipt time minus tick timestamp whenever
the timestamp is truthy (nonzero).  now is the Date.now() reading. -/
def enrichTick (sequenceCounter : ℕ) (tick : PriceTick) (rawMessage : RawMessage)
    (now : ℕ) : EnrichedTick × ℕ :=
  let c := sequenceCounter + 1
  ({ ric := tick.ric, price := tick.price, timestamp := tick.timestamp,
     volume := tick.volume, bid := tick.bid, ask := tick.ask,
     receivedAt := rawMessage.receivedAt, clientId := rawMessage.clientId,
     sequenceId := natChars now ++ '-' :: natChars c,
     latencyMs :=
       if tick.timestamp ≠ 0 then some (rawMessage.receivedAt - tick.timestamp)
       else none,
     validationPassed := true, validationErrors := [] }, c)

/-- A run of the service enriching accepted ticks in order, threading
sequenceCounter; each element carries the tick, its raw-message
metadata and the Date.now() reading of that step. -/
def enrichRun (sequenceCounter : ℕ) :
    List (PriceTick × RawMessage × ℕ) → List EnrichedTick
  | [] => []
  | (t, rm, now) :: rest =>
      let r := enrichTick sequenceCounter t rm now
      r.1 :: enrichRun r.2 rest

/-- The counter component of a sequenceId: the digits after the dash
that separates the Date.now() part from the sequenceCounter part. -/
def seqCounterOf (s : List Char) : ℕ :=
  natOfChars ((s.dropWhile (fun c => c != '-')).drop 1)

/-- A run of ten ticks arriving within one Date.now() millisecond,
from the process start (counter zero). -/
def tenTickInputs : List (PriceTick × RawMessage × ℕ) :=
  List.replicate 10
    ({ ric := ['X', 'X'], price := 1, timestamp := 1 },
     { data := [], clientId := "c", receivedAt := 0 }, 5)

/-! ## Theorems -/

theorem natDigitsAux_eq_digits :
    ∀ (fuel n : ℕ), n ≤ fuel → natDigitsAux fuel n = Nat.digits 10 n := by
  intro fuel
  induction fuel with
  | zero => intro n hn; interval_cases n; simp [natDigitsAux]
  | succ f ih =>
      intro n hn
      match n with
      | 0 => simp [natDigitsAux]
      | k + 1 =>
          have h1 : (k + 1) / 10 < k + 1 := Nat.div_lt_self (Nat.succ_pos k) (by norm_num)
          rw [natDigitsAux, Nat.digits_def' (b := 10) (by norm_num) (Nat.succ_pos k),
            ih ((k + 1) / 10) (by omega)]

theorem natDigitsLE_eq_digits (n : ℕ) : natDigitsLE n = Nat.digits 10 n :=
  natDigitsAux_eq_digits n n le_rfl

theorem charDigitVal_digitChar {d : ℕ} (h : d < 10) :
    charDigitVal (Nat.digitChar d) = d := by
  interval_cases d <;> decide

theorem isDigitC_digitChar {d : ℕ} (h : d < 10) :
    isDigitC (Nat.digitChar d) = true := by
  interval_cases d <;> decide

theorem natOfChars_foldl_acc (l : List Char) (a : ℕ) :
    l.foldl (fun a c => a * 10 + charDigitVal c) a
      = a * 10 ^ l.length + natOfChars l := by
  induction l generalizing a with
  | nil => simp [natOfChars]
  | cons c t ih =>
      simp only [List.foldl_cons, List.length_cons, natOfChars] at *
      rw [ih, ih (0 * 10 + charDigitVal c)]
      ring

theorem natOfChars_append (l₁ l₂ : List Char) :
    natOfChars (l₁ ++ l₂) = natOfChars l₁ * 10 ^ l₂.length + natOfChars l₂ := by
  unfold natOfChars
  rw [List.foldl_append, natOfChars_foldl_acc]
  rfl

theorem natOfChars_digits (le : List ℕ) (h : ∀ d ∈ le, d < 10) :
    natOfChars ((le.map Nat.digitChar).reverse) = Nat.ofDigits 10 le := by
  induction le with
  | nil => simp [natOfChars]
  | cons d t ih =>
      have hd : d < 10 := h d (List.mem_cons_self d t)
      have ht : ∀ x ∈ t, x < 10 := fun x hx => h x (List.mem_cons_of_mem d hx)
      simp only [List.map_cons, List.reverse_cons]
      rw [natOfChars_append, ih ht, Nat.ofDigits_cons]
      simp [natOfChars, charDigitVal_digitChar hd]
      ring

theorem natOfChars_natChars (n : ℕ) : natOfChars (natChars n) = n := by
  unfold natChars
  rw [natDigitsLE_eq_digits]
  split
  · simp [natOfChars, charDigitVal]
    omega
  · rw [natOfChars_digits _ (fun d hd => Nat.digits_lt_base (by norm_num) hd)]
    exact Nat.ofDigits_digits 10 n

theorem natChars_ne_nil (n : ℕ) : natChars n ≠ [] := by
  unfold natChars
  rw [natDigitsLE_eq_digits]
  split
  · simp
  · simp [Nat.digits_ne_nil_iff_ne_zero, *]

theorem natChars_all_digits (n : ℕ) : ∀ c ∈ natChars n, isDigitC c = true := by
  unfold natChars
  rw [natDigitsLE_eq_digits]
  split
  · intro c hc; simp at hc; subst hc; decide
  · intro c hc
    simp only [List.mem_reverse, List.mem_map] at hc
    obtain ⟨d, hd, rfl⟩ := hc
    exact isDigitC_digitChar (Nat.digits_lt_base (by norm_num) hd)

theorem digit_not_ws {c : Char} (h : isDigitC c = true) : isWsChar c = false := by
  simp only [isDigitC, isWsChar, Bool.and_eq_true, decide_eq_true_eq,
    Bool.or_eq_false_iff, decide_eq_false_iff_not] at *
  obtain ⟨h1, h2⟩ := h
  refine ⟨⟨⟨fun hc => ?_, fun hc => ?_⟩, fun hc => ?_⟩, fun hc => ?_⟩ <;>
    (subst hc; revert h1 h2; decide)

theorem digit_ne {c x : Char} (h : isDigitC c = true) (hx : isDigitC x = false) :
    c ≠ x := by
  intro hc; subst hc; rw [h] at hx; cases hx

theorem takeWhile_all {p : Char → Bool} {l : List Char}
    (h : ∀ c ∈ l, p c = true) : l.takeWhile p = l := by
  induction l with
  | nil => rfl
  | cons c t ih =>
      simp [List.takeWhile_cons, h c (List.mem_cons_self c t),
        ih (fun x hx => h x (List.mem_cons_of_mem c hx))]

theorem dropWhile_all {p : Char → Bool} {l : List Char}
    (h : ∀ c ∈ l, p c = true) : l.dropWhile p = [] := by
  induction l with
  | nil => rfl
  | cons c t ih =>
      rw [List.dropWhile_cons, h c (List.mem_cons_self c t)]
      exact ih (fun x hx => h x (List.mem_cons_of_mem c hx))

theorem takeWhile_block {p : Char → Bool} {l m : List Char} {b : Char}
    (h : ∀ c ∈ l, p c = true) (hb : p b = false) :
    (l ++ b :: m).takeWhile p = l := by
  induction l with
  | nil => simp [List.takeWhile_cons, hb]
  | cons c t ih =>
      simp [List.cons_append, List.takeWhile_cons, h c (List.mem_cons_self c t),
        ih (fun x hx => h x (List.mem_cons_of_mem c hx))]

theorem dropWhile_block {p : Char → Bool} {l m : List Char} {b : Char}
    (h : ∀ c ∈ l, p c = true) (hb : p b = false) :
    (l ++ b :: m).dropWhile p = b :: m := by
  induction l with
  | nil => simp [List.dropWhile_cons, hb]
  | cons c t ih =>
      rw [List.cons_append, List.dropWhile_cons, h c (List.mem_cons_self c t)]
      exact ih (fun x hx => h x (List.mem_cons_of_mem c hx))

theorem dropWhile_none {p : Char → Bool} {l : List Char}
    (h : ∀ c ∈ l, p c = false) : l.dropWhile p = l := by
  induction l with
  | nil => rfl
  | cons c t _ =>
      simp [List.dropWhile_cons, h c (List.mem_cons_self c t)]

theorem trimC_no_ws {l : List Char} (h : ∀ c ∈ l, isWsChar c = false) :
    trimC l = l := by
  unfold trimC
  rw [dropWhile_none h, dropWhile_none (fun c hc => h c (List.mem_reverse.mp hc)),
    List.reverse_reverse]

theorem stripNewlines_id :
    ∀ (l : List Char), (∀ c ∈ l, c ≠ '\n' ∧ c ≠ '\r') → stripNewlines l = l
  | [], _ => rfl
  | [c], h => by
      obtain ⟨h1, _⟩ := h c (by simp)
      simp [stripNewlines, h1]
  | c :: c₂ :: cs, h => by
      obtain ⟨h1, h2⟩ := h c (by simp)
      rw [stripNewlines, if_neg h1, if_neg (fun hc => h2 hc.1),
        stripNewlines_id (c₂ :: cs) (fun x hx => h x (by simp at hx ⊢; tauto))]

theorem splitOnC_ne_nil (sep : Char) (l : List Char) : splitOnC sep l ≠ [] := by
  induction l with
  | nil => simp [splitOnC]
  | cons c cs ih =>
      rw [splitOnC]
      match h : splitOnC sep cs with
      | [] => simp
      | hh :: tt => dsimp only; split <;> simp

theorem splitOnC_no_sep {sep : Char} {l : List Char}
    (h : ∀ c ∈ l, c ≠ sep) : splitOnC sep l = [l] := by
  induction l with
  | nil => rfl
  | cons c t ih =>
      rw [splitOnC, ih (fun x hx => h x (List.mem_cons_of_mem c hx))]
      simp [h c (List.mem_cons_self c t)]

theorem splitOnC_block {sep : Char} {l m : List Char}
    (h : ∀ c ∈ l, c ≠ sep) :
    splitOnC sep (l ++ sep :: m) = l :: splitOnC sep m := by
  induction l with
  | nil =>
      rw [List.nil_append, splitOnC]
      match hm : splitOnC sep m with
      | [] => exact absurd hm (splitOnC_ne_nil sep m)
      | hh :: tt => simp
  | cons c t ih =>
      rw [List.cons_append, splitOnC,
        ih (fun x hx => h x (List.mem_cons_of_mem c hx))]
      simp [h c (List.mem_cons_self c t)]

theorem decExp_dvd {den e : ℕ} (h : decExp den = some e) : den ∣ 10 ^ e := by
  have := List.find?_some h
  simpa using this

theorem parseSign_cons {c : Char} (t : List Char) (h1 : c ≠ '-') (h2 : c ≠ '+') :
    parseSign (c :: t) = (false, c :: t) := by
  unfold parseSign
  split <;> simp_all

theorem natOfChars_replicate_zero (k : ℕ) (l : List Char) :
    natOfChars (List.replicate k '0' ++ l) = natOfChars l := by
  rw [natOfChars_append]
  have : natOfChars (List.replicate k '0') = 0 := by
    induction k with
    | zero => rfl
    | succ j ih =>
        rw [List.replicate_succ]
        have : natOfChars ('0' :: List.replicate j '0')
            = List.foldl (fun a c => a * 10 + charDigitVal c) 0 (List.replicate j '0') := by
          simp [natOfChars, charDigitVal]
        rw [this]
        exact ih
  rw [this]
  simp

/-- parseFloat on a pure digit string. -/
theorem parseFloatC_digits {A : List Char} (hA : ∀ c ∈ A, isDigitC c = true)
    (hAne : A ≠ []) : parseFloatC A = some ((natOfChars A : ℚ)) := by
  obtain ⟨a, A', rfl⟩ := List.exists_cons_of_ne_nil hAne
  have ha := hA a (List.mem_cons_self a A')
  have hws : ∀ c ∈ a :: A', isWsChar c = false := fun c hc => digit_not_ws (hA c hc)
  unfold parseFloatC
  rw [dropWhile_none hws,
    parseSign_cons A' (digit_ne ha (by decide)) (digit_ne ha (by decide))]
  simp only [takeWhile_all hA, dropWhile_all hA]
  norm_num
  exact ⟨List.cons_ne_nil a A', rfl⟩

/-- parseFloat on digits, a decimal point, then more digits. -/
theorem parseFloatC_digits_dot {A B : List Char}
    (hA : ∀ c ∈ A, isDigitC c = true) (hB : ∀ c ∈ B, isDigitC c = true)
    (hAne : A ≠ []) :
    parseFloatC (A ++ '.' :: B)
      = some ((natOfChars A : ℚ) + (natOfChars B : ℚ) / 10 ^ B.length) := by
  obtain ⟨a, A', rfl⟩ := List.exists_cons_of_ne_nil hAne
  have ha := hA a (List.mem_cons_self a A')
  have hws : ∀ c ∈ (a :: A') ++ '.' :: B, isWsChar c = false := by
    intro c hc
    rcases List.mem_append.mp hc with h | h
    · exact digit_not_ws (hA c h)
    · rcases List.mem_cons.mp h with rfl | h
      · decide
      · exact digit_not_ws (hB c h)
  have hshape : (a :: A') ++ '.' :: B = a :: (A' ++ '.' :: B) := rfl
  unfold parseFloatC
  rw [dropWhile_none hws, hshape,
    parseSign_cons (A' ++ '.' :: B) (digit_ne ha (by decide)) (digit_ne ha (by decide)),
    ← hshape]
  simp only [@takeWhile_block isDigitC (a :: A') B '.' hA (by decide),
    @dropWhile_block isDigitC (a :: A') B '.' hA (by decide),
    takeWhile_all hB, dropWhile_all hB]
  norm_num
  intro h
  exact absurd h (List.cons_ne_nil a A')

/-- parseInt on a pure digit string. -/
theorem parseIntC_digits {A : List Char} (hA : ∀ c ∈ A, isDigitC c = true)
    (hAne : A ≠ []) : parseIntC A = some ((natOfChars A : ℤ)) := by
  obtain ⟨a, A', rfl⟩ := List.exists_cons_of_ne_nil hAne
  have ha := hA a (List.mem_cons_self a A')
  have hws : ∀ c ∈ a :: A', isWsChar c = false := fun c hc => digit_not_ws (hA c hc)
  unfold parseIntC
  rw [dropWhile_none hws,
    parseSign_cons A' (digit_ne ha (by decide)) (digit_ne ha (by decide))]
  simp only [takeWhile_all hA]
  simp

theorem parseIntC_natChars (n : ℕ) : parseIntC (natChars n) = some (n : ℤ) := by
  rw [parseIntC_digits (natChars_all_digits n) (natChars_ne_nil n), natOfChars_natChars]

/-- The integer rendered by ratToChars, cast back to the rationals. -/
theorem ratToChars_scaled_cast (q : ℚ) (e : ℕ) (h0 : 0 ≤ q) (hdvd : q.den ∣ 10 ^ e) :
    ((q.num.natAbs * (10 ^ e / q.den) : ℕ) : ℚ) = q * 10 ^ e := by
  have hden : (q.den : ℚ) ≠ 0 := Nat.cast_ne_zero.mpr q.den_nz
  have hnum : (q.num.natAbs : ℤ) = q.num := Int.natAbs_of_nonneg (Rat.num_nonneg.mpr h0)
  calc ((q.num.natAbs * (10 ^ e / q.den) : ℕ) : ℚ)
      = (q.num.natAbs : ℚ) * ((10 ^ e / q.den : ℕ) : ℚ) := by push_cast; ring
    _ = (q.num : ℚ) * ((10 ^ e : ℕ) : ℚ) / (q.den : ℚ) := by
        rw [Nat.cast_div hdvd hden]
        rw [show ((q.num.natAbs : ℚ)) = ((q.num : ℚ)) from by
          rw [← Int.cast_natCast (R := ℚ), hnum]]
        ring
    _ = ((q.num : ℚ) / q.den) * 10 ^ e := by push_cast; ring
    _ = q * 10 ^ e := by rw [Rat.num_div_den]

/-- Round trip of the wire rendering of a nonnegative finite-decimal
rational through parseFloat: decoding the encoding gives back the exact
value. -/
theorem parseFloatC_ratToChars (q : ℚ) {e : ℕ} (h0 : 0 ≤ q)
    (he : decExp q.den = some e) : parseFloatC (ratToChars q) = some q := by
  have hsign : ¬ q < 0 := not_lt.mpr h0
  have hm := ratToChars_scaled_cast q e h0 (decExp_dvd he)
  unfold ratToChars
  rw [he]
  dsimp only
  rw [if_neg hsign]
  by_cases he0 : e = 0
  · subst he0
    rw [if_pos rfl, List.nil_append,
      parseFloatC_digits (natChars_all_digits _) (natChars_ne_nil _),
      natOfChars_natChars]
    norm_num at hm ⊢
    exact hm
  · rw [if_neg he0]
    set m := q.num.natAbs * (10 ^ e / q.den) with hmdef
    set ds := natChars m with hds
    set ds₂ := List.replicate (e + 1 - ds.length) '0' ++ ds with hds₂
    have hds_ne : ds ≠ [] := natChars_ne_nil m
    have hds_len : 1 ≤ ds.length := List.length_pos.mpr hds_ne
    have hlen : e + 1 ≤ ds₂.length := by
      rw [hds₂, List.length_append, List.length_replicate]
      omega
    have hall : ∀ c ∈ ds₂, isDigitC c = true := by
      intro c hc
      rcases List.mem_append.mp hc with h | h
      · rw [List.eq_of_mem_replicate h]; decide
      · exact natChars_all_digits m c h
    have hA : ∀ c ∈ ds₂.take (ds₂.length - e), isDigitC c = true :=
      fun c hc => hall c (List.take_subset _ _ hc)
    have hB : ∀ c ∈ ds₂.drop (ds₂.length - e), isDigitC c = true :=
      fun c hc => hall c (List.drop_subset _ _ hc)
    have hAne : ds₂.take (ds₂.length - e) ≠ [] := by
      have : (ds₂.take (ds₂.length - e)).length = ds₂.length - e := by
        rw [List.length_take]
        omega
      intro hnil
      rw [hnil] at this
      simp at this
      omega
    have hBlen : (ds₂.drop (ds₂.length - e)).length = e := by
      rw [List.length_drop]
      omega
    rw [List.nil_append, parseFloatC_digits_dot hA hB hAne]
    have hval : natOfChars (ds₂.take (ds₂.length - e)) * 10 ^ e
        + natOfChars (ds₂.drop (ds₂.length - e)) = m := by
      have happ := natOfChars_append (ds₂.take (ds₂.length - e)) (ds₂.drop (ds₂.length - e))
      rw [List.take_append_drop, hBlen] at happ
      rw [← happ, hds₂, natOfChars_replicate_zero, hds, natOfChars_natChars]
    have h10 : ((10 : ℚ)) ^ e ≠ 0 := pow_ne_zero _ (by norm_num)
    rw [hBlen]
    congr 1
    have hcast : (natOfChars (ds₂.take (ds₂.length - e)) : ℚ) * 10 ^ e
        + (natOfChars (ds₂.drop (ds₂.length - e)) : ℚ) = (m : ℚ) := by
      exact_mod_cast congrArg (fun n : ℕ => (n : ℚ)) hval
    rw [hm] at hcast
    field_simp
    linarith [hcast]

/-- Every character rendered for a nonnegative value is a digit or the
decimal point (so a rendered field never holds a delimiter, a newline
or whitespace). -/
theorem ratToChars_mem (q : ℚ) (h0 : 0 ≤ q) :
    ∀ c ∈ ratToChars q, isDigitC c = true ∨ c = '.' := by
  unfold ratToChars
  intro c hc
  match hde : decExp q.den with
  | none =>
      rw [hde] at hc
      simp at hc
      subst hc
      left; decide
  | some e =>
      rw [hde] at hc
      dsimp only at hc
      rw [if_neg (not_lt.mpr h0)] at hc
      have hall : ∀ x ∈ List.replicate (e + 1 - (natChars (q.num.natAbs * (10 ^ e / q.den))).length) '0'
          ++ natChars (q.num.natAbs * (10 ^ e / q.den)), isDigitC x = true := by
        intro x hx
        rcases List.mem_append.mp hx with h | h
        · rw [List.eq_of_mem_replicate h]; decide
        · exact natChars_all_digits _ x h
      by_cases he0 : e = 0
      · subst he0
        rw [if_pos rfl, List.nil_append] at hc
        exact Or.inl (natChars_all_digits _ c hc)
      · rw [if_neg he0, List.nil_append] at hc
        rcases List.mem_append.mp hc with h | h
        · exact Or.inl (hall c (List.take_subset _ _ h))
        · rcases List.mem_cons.mp h with rfl | h
          · exact Or.inr rfl
          · exact Or.inl (hall c (List.drop_subset _ _ h))

theorem lookupPrice_setPrice_self (ric : List Char) (p : ℚ) (m : PriceMap) :
    lookupPrice ric (setPrice ric p m) = some p := by
  induction m with
  | nil => simp [setPrice, lookupPrice]
  | cons kv t ih =>
      obtain ⟨k, v⟩ := kv
      by_cases hk : k = ric
      · simp [setPrice, lookupPrice, hk]
      · simp [setPrice, lookupPrice, hk, ih]

theorem lookupPrice_setPrice_other {ric y : List Char} (p : ℚ) (m : PriceMap)
    (hy : y ≠ ric) : lookupPrice y (setPrice ric p m) = lookupPrice y m := by
  have hry : ¬ ric = y := fun h => hy h.symm
  induction m with
  | nil => simp [setPrice, lookupPrice, hry]
  | cons kv t ih =>
      obtain ⟨k, v⟩ := kv
      by_cases hk : k = ric
      · subst hk
        simp [setPrice, lookupPrice, hry]
      · simp only [setPrice, lookupPrice, if_neg hk]
        by_cases hky : k = y
        · simp [lookupPrice, hky]
        · simp [lookupPrice, hky, ih]

/-- Every error exit of the structural phase carries at least one
message. -/
theorem parseTick_error_ne_nil {cfg : IngestorConfig} {now : ℤ}
    {raw : List Char} {es : List String}
    (h : parseTick cfg now raw = .error es) : es ≠ [] := by
  intro hnil
  subst hnil
  simp only [parseTick] at h
  split at h
  · simp at h
  · split at h
    · split at h
      · simp at h
      · next herr => exact herr (by simpa using h)
    · simp at h

/-- C9: for every input string and every validator state, the
ValidationResult is well-formed: isValid holds exactly when the error
list is empty, and a tick is returned exactly when the message is
valid; success is never reported together with errors and no tick
escapes a rejection. -/
theorem c9_validation_result_wellformed (cfg : IngestorConfig) (st : PriceMap)
    (now : ℤ) (raw : List Char) :
    ((validateMessage cfg st now raw).1.isValid = true
        ↔ (validateMessage cfg st now raw).1.errors = [])
    ∧ ((validateMessage cfg st now raw).1.tick.isSome
        ↔ (validateMessage cfg st now raw).1.isValid = true) := by
  unfold validateMessage
  cases hp : parseTick cfg now raw with
  | error es =>
      have hne := parseTick_error_ne_nil hp
      simp [hne]
  | ok tick =>
      dsimp only
      split
      · simp
      · next h => simp [h]

/-- C3: a rejected message never mutates the per-instrument last-price
map; an accepted message for instrument X with price P leaves the map
binding X to P; and no other instrument's entry is changed by one
call. -/
theorem c3_state_update_on_accept_only (cfg : IngestorConfig) (st : PriceMap)
    (now : ℤ) (raw : List Char) :
    ((validateMessage cfg st now raw).1.isValid = false →
        (validateMessage cfg st now raw).2 = st)
    ∧ (∀ t, (validateMessage cfg st now raw).1.tick = some t →
        lookupPrice t.ric (validateMessage cfg st now raw).2 = some t.price
        ∧ ∀ y, y ≠ t.ric →
            lookupPrice y (validateMessage cfg st now raw).2 = lookupPrice y st) := by
  unfold validateMessage
  cases hp : parseTick cfg now raw with
  | error es =>
      dsimp only
      exact ⟨fun _ => rfl, by intro t ht; simp at ht⟩
  | ok tick =>
      dsimp only
      split
      · constructor
        · intro hiv; simp at hiv
        · intro t ht
          have htt : tick = t := by simpa using ht
          subst htt
          exact ⟨lookupPrice_setPrice_self _ _ _,
            fun y hy => lookupPrice_setPrice_other _ _ hy⟩
      · exact ⟨fun _ => rfl, by intro t ht; simp at ht⟩

unseal Rat.add Rat.mul Rat.inv Rat.sub Rat.ofScientific in
/-- C3 witness: a concrete accepted tick leaves its price in the map. -/
theorem c3_state_update_witness :
    lookupPrice ['A', 'A']
      (validateMessage defaultConfig [] 1700000000000
        (String.data "AA|5|1700000000000|||")).2 = some 5 := by
  have h := (c3_state_update_on_accept_only defaultConfig [] 1700000000000
      (String.data "AA|5|1700000000000|||")).2
    { ric := ['A', 'A'], price := 5, timestamp := 1700000000000 }
    (by decide)
  exact h.1

/-- C5: a nonempty cleaned line that does not split into exactly six
fields is rejected outright: no tick, a single arity error recorded
before any field-level parsing, and the state untouched. -/
theorem c5_arity_hard_failure (cfg : IngestorConfig) (st : PriceMap) (now : ℤ)
    (raw : List Char)
    (h1 : trimC (stripNewlines raw) ≠ [])
    (h2 : (splitOnC '|' (trimC (stripNewlines raw))).length ≠ 6) :
    (validateMessage cfg st now raw).1.isValid = false
    ∧ (validateMessage cfg st now raw).1.tick = none
    ∧ (validateMessage cfg st now raw).1.errors
        = ["Invalid message format. Expected 6 parts, got "
            ++ String.mk (natChars (splitOnC '|' (trimC (stripNewlines raw))).length)
            ++ ". Message: " ++ String.mk (trimC (stripNewlines raw))]
    ∧ (validateMessage cfg st now raw).2 = st := by
  have hp : parseTick cfg now raw
      = .error ["Invalid message format. Expected 6 parts, got "
          ++ String.mk (natChars (splitOnC '|' (trimC (stripNewlines raw))).length)
          ++ ". Message: " ++ String.mk (trimC (stripNewlines raw))] := by
    unfold parseTick
    dsimp only
    rw [if_neg h1, if_neg h2]
  unfold validateMessage
  rw [hp]
  exact ⟨rfl, rfl, rfl, rfl⟩

/-- C5 witness: the three-field line of the specification scenario. -/
theorem c5_arity_witness :
    (validateMessage defaultConfig [] 0 (String.data "TOO|FEW|FIELDS")).1.isValid
        = false
    ∧ (validateMessage defaultConfig [] 0 (String.data "TOO|FEW|FIELDS")).1.tick
        = none := by
  have h := c5_arity_hard_failure defaultConfig [] 0 (String.data "TOO|FEW|FIELDS")
    (by decide) (by decide)
  exact ⟨h.1, h.2.1⟩

theorem flushWrites_false_all (q : List (List Char)) :
    ∀ i, flushWrites (fun _ => false) i q = [] := by
  induction q with
  | nil => intro i; rfl
  | cons m rest ih => intro i; simp [flushWrites, ih]

theorem flushWrites_true_all (q : List (List Char)) :
    ∀ i, flushWrites (fun _ => true) i q = q.map (fun m => m ++ ['\n']) := by
  induction q with
  | nil => intro i; rfl
  | cons m rest ih => intro i; simp [flushWrites, ih]

/-- A successful connect with the link staying up drains the whole
queue onto the socket, in order. -/
theorem connectSucceed_true (st : SenderState) :
    connectSucceed (fun _ => true) st
      = { isConnected := true, messageQueue := [],
          written := st.written ++ st.messageQueue.map (fun m => m ++ ['\n']) } := by
  unfold connectSucceed flushMessageQueue
  by_cases h : st.messageQueue = []
  · simp [h]
  · simp [h, flushWrites_true_all]

/-- Sends while disconnected only append the encoded records to the
queue, in call order. -/
theorem sendTick_run_disconnected (ticks : List PriceTick) (st : SenderState)
    (h : st.isConnected = false) :
    List.foldl sendTick st ticks
      = { st with messageQueue := st.messageQueue ++ ticks.map formatTick } := by
  induction ticks generalizing st with
  | nil => simp
  | cons t ts ih =>
      rw [List.foldl_cons,
        show sendTick st t
            = { st with messageQueue := st.messageQueue ++ [formatTick t] } from by
          unfold sendTick; simp [h],
        ih _ (by simp [h])]
      simp

/-- C10: one run of flushMessageQueue always leaves the queue empty,
and whatever the per-iteration connection flag did not let through is
discarded, not retained: with the link down throughout, nothing is
written and the queue is still emptied. -/
theorem c10_flush_always_empties_queue (connUp : ℕ → Bool) (st : SenderState)
    (h : st.messageQueue ≠ []) :
    (flushMessageQueue connUp st).messageQueue = []
    ∧ (flushMessageQueue connUp st).written
        = st.written ++ flushWrites connUp 0 st.messageQueue
    ∧ (flushMessageQueue (fun _ => false) st).messageQueue = []
    ∧ (flushMessageQueue (fun _ => false) st).written = st.written := by
  unfold flushMessageQueue
  simp only [if_neg h]
  refine ⟨trivial, trivial, trivial, ?_⟩
  rw [flushWrites_false_all st.messageQueue 0]
  simp

/-- C10 witness: a one-element queue at a concrete state. -/
theorem c10_flush_witness :
    (flushMessageQueue (fun _ => true)
      { isConnected := true, messageQueue := [['a']], written := [] }).messageQueue = []
    ∧ (flushMessageQueue (fun _ => false)
      { isConnected := true, messageQueue := [['a']], written := [] }).written = [] := by
  have h := c10_flush_always_empties_queue (fun _ => true)
    { isConnected := true, messageQueue := [['a']], written := [] } (by decide)
  exact ⟨h.1, h.2.2.2⟩

/-- C7: with the client disconnected and the queue empty, N sendTick
calls followed by a successful connect (the link staying up through the
flush) write exactly the N encoded records, in call order, none
duplicated and none dropped; while disconnected, sendTick only appends
to the queue. -/
theorem c7_reconnect_flush_in_order (st : SenderState) (ticks : List PriceTick)
    (h1 : st.isConnected = false) (h2 : st.messageQueue = []) :
    (List.foldl sendTick st ticks).messageQueue = ticks.map formatTick
    ∧ (List.foldl sendTick st ticks).written = st.written
    ∧ (connectSucceed (fun _ => true) (List.foldl sendTick st ticks)).written
        = st.written ++ ticks.map (fun t => formatTick t ++ ['\n'])
    ∧ (connectSucceed (fun _ => true) (List.foldl sendTick st ticks)).messageQueue
        = [] := by
  rw [sendTick_run_disconnected ticks st h1, h2, connectSucceed_true]
  simp

unseal Rat.add Rat.mul Rat.inv Rat.sub Rat.ofScientific in
/-- C7 witness: two concrete ticks queued while disconnected are both
written, in order, on reconnect. -/
theorem c7_reconnect_witness :
    (connectSucceed (fun _ => true)
      (List.foldl sendTick { isConnected := false, messageQueue := [], written := [] }
        [{ ric := ['A', 'A'], price := 5, timestamp := 7 },
         { ric := ['B', 'B'], price := 6, timestamp := 8 }])).written
      = [String.data "AA|5|7|||" ++ ['\n'], String.data "BB|6|8|||" ++ ['\n']] := by
  have h := c7_reconnect_flush_in_order
    { isConnected := false, messageQueue := [], written := [] }
    [{ ric := ['A', 'A'], price := 5, timestamp := 7 },
     { ric := ['B', 'B'], price := 6, timestamp := 8 }] (by decide) (by decide)
  rw [h.2.2.1]
  decide

/-- C8: for every accepted tick (its timestamp is a truthy number),
the enriched record carries latencyMs equal to receipt time minus the
event timestamp, with no clamping, and the record is still marked as
passing validation even when that difference is negative. -/
theorem c8_latency_exact_never_clamped (counter : ℕ) (tick : PriceTick)
    (rm : RawMessage) (now : ℕ) (h : tick.timestamp ≠ 0) :
    (enrichTick counter tick rm now).1.latencyMs
        = some (rm.receivedAt - tick.timestamp)
    ∧ (enrichTick counter tick rm now).1.validationPassed = true := by
  unfold enrichTick
  simp [h]

/-- C8 witness: a receipt time behind the event timestamp yields a
negative latency and the record is still produced as passing. -/
theorem c8_latency_witness :
    (enrichTick 0 { ric := ['A', 'A'], price := 1, timestamp := 10 }
      { data := [], clientId := "c", receivedAt := 5 } 7).1.latencyMs
      = some (-5) := by
  have h := c8_latency_exact_never_clamped 0
    { ric := ['A', 'A'], price := 1, timestamp := 10 }
    { data := [], clientId := "c", receivedAt := 5 } 7 (by decide)
  simpa using h.1

theorem seqCounterOf_mk (now c : ℕ) :
    seqCounterOf (natChars now ++ '-' :: natChars c) = c := by
  unfold seqCounterOf
  rw [dropWhile_block
      (fun x hx => by
        simp only [bne_iff_ne, ne_eq, decide_eq_true_eq]
        exact digit_ne (natChars_all_digits now x hx) (by decide))
      (by decide)]
  simp [natOfChars_natChars]

/-- Across a run, the counter components are consecutive from the
starting counter plus one. -/
theorem enrichRun_counterSuffix (inputs : List (PriceTick × RawMessage × ℕ)) :
    ∀ c0, (enrichRun c0 inputs).map (fun e => seqCounterOf e.sequenceId)
      = List.range' (c0 + 1) inputs.length := by
  induction inputs with
  | nil => intro c0; rfl
  | cons x rest ih =>
      intro c0
      obtain ⟨t, rm, now⟩ := x
      simp only [enrichRun, enrichTick, List.map_cons, List.length_cons]
      rw [seqCounterOf_mk, ih (c0 + 1)]
      simp [List.range']

/-- C2 (amended): over any run of the service from any starting
counter, the sequenceId strings are pairwise distinct (their counter
component strictly increases in send order); the strings themselves,
however, are not lexicographically increasing. -/
theorem c2_amended_ids_distinct (c0 : ℕ)
    (inputs : List (PriceTick × RawMessage × ℕ)) :
    ((enrichRun c0 inputs).map (fun e => e.sequenceId)).Pairwise (· ≠ ·)
    ∧ ((enrichRun c0 inputs).map (fun e => seqCounterOf e.sequenceId)).Pairwise
        (· < ·) := by
  have hlt : ((enrichRun c0 inputs).map
      (fun e => seqCounterOf e.sequenceId)).Pairwise (· < ·) := by
    rw [enrichRun_counterSuffix inputs c0]
    exact List.pairwise_lt_range' _ _
  refine ⟨?_, hlt⟩
  rw [List.pairwise_map]
  rw [List.pairwise_map] at hlt
  exact hlt.imp (fun h heq => absurd (congrArg seqCounterOf heq) (Nat.ne_of_lt h))

/-- C2 counterexample: on that run the assigned sequenceId strings are
not strictly increasing (the ninth is the string 5-9 and the tenth the
string 5-10, which is lexicographically smaller), so distinct-and-
increasing fails as stated. -/
theorem c2_counterexample_ids_not_increasing :
    ¬ ((((enrichRun 0 tenTickInputs).map (fun e => e.sequenceId)).Pairwise (· ≠ ·))
      ∧ (((enrichRun 0 tenTickInputs).map (fun e => e.sequenceId)).Pairwise
          (· < ·))) := by
  decide

/-- A buffer without newlines yields no line and stays buffered. -/
theorem extractLines_no_nl {l : List Char} (h : ∀ c ∈ l, c ≠ '\n') :
    extractLines l = ([], l) := by
  induction l with
  | nil => rfl
  | cons c t ih =>
      rw [extractLines, if_neg (h c (List.mem_cons_self c t)),
        ih (fun x hx => h x (List.mem_cons_of_mem c hx))]

/-- The leftover buffer of the extraction loop never contains a
newline. -/
theorem extractLines_rest_no_nl :
    ∀ (l : List Char), ∀ c ∈ (extractLines l).2, c ≠ '\n'
  | [], _, hc => absurd hc (by simp [extractLines])
  | c :: cs, x, hx => by
      by_cases hc : c = '\n'
      · rw [extractLines, if_pos hc] at hx
        exact extractLines_rest_no_nl cs x hx
      · rw [extractLines, if_neg hc] at hx
        rcases hE : extractLines cs with ⟨E1, E2⟩
        rw [hE] at hx
        cases E1 with
        | nil =>
            simp only [] at hx
            rcases List.mem_cons.mp hx with rfl | hx₂
            · exact hc
            · exact extractLines_rest_no_nl cs x (by rw [hE]; exact hx₂)
        | cons l ls =>
            exact extractLines_rest_no_nl cs x (by rw [hE]; exact hx)

theorem extractLines_nl (cs : List Char) :
    extractLines ('\n' :: cs) = ([] :: (extractLines cs).1, (extractLines cs).2) := by
  rw [extractLines]
  simp

theorem extractLines_cons_of_nil {c : Char} {cs : List Char} (hc : c ≠ '\n')
    (h : (extractLines cs).1 = []) :
    extractLines (c :: cs) = ([], c :: (extractLines cs).2) := by
  rw [extractLines, if_neg hc]
  rcases hE : extractLines cs with ⟨E1, E2⟩
  rw [hE] at h
  subst h
  simp [hE]

theorem extractLines_cons_of_cons {c : Char} {cs l : List Char}
    {ls : List (List Char)} (hc : c ≠ '\n')
    (h : (extractLines cs).1 = l :: ls) :
    extractLines (c :: cs) = ((c :: l) :: ls, (extractLines cs).2) := by
  rw [extractLines, if_neg hc]
  rcases hE : extractLines cs with ⟨E1, E2⟩
  rw [hE] at h
  subst h
  simp [hE]

/-- Splitting the input at any point commutes with the extraction
loop: the lines of A followed by the lines of the leftover of A glued
to B, with the final buffer coming from that second pass. -/
theorem extractLines_append (A B : List Char) :
    extractLines (A ++ B)
      = ((extractLines A).1 ++ (extractLines ((extractLines A).2 ++ B)).1,
         (extractLines ((extractLines A).2 ++ B)).2) := by
  induction A with
  | nil => simp [extractLines]
  | cons c A' ih =>
      by_cases hc : c = '\n'
      · subst hc
        rw [List.cons_append, extractLines_nl, extractLines_nl, ih]
        simp
      · rcases hE1 : (extractLines A').1 with _ | ⟨l, ls⟩
        · have hAB1 : (extractLines (A' ++ B)).1
              = (extractLines ((extractLines A').2 ++ B)).1 := by
            rw [ih]; simp [hE1]
          have hAB2 : (extractLines (A' ++ B)).2
              = (extractLines ((extractLines A').2 ++ B)).2 := by
            rw [ih]
          rcases hS1 : (extractLines ((extractLines A').2 ++ B)).1 with _ | ⟨m, ms⟩
          · rw [List.cons_append,
              extractLines_cons_of_nil hc (hAB1.trans hS1),
              extractLines_cons_of_nil hc hE1]
            rw [show (([], c :: (extractLines A').2) :
                  List (List Char) × List Char).2 ++ B
                = c :: ((extractLines A').2 ++ B) from rfl,
              extractLines_cons_of_nil hc hS1]
            simp [hAB2]
          · rw [List.cons_append,
              extractLines_cons_of_cons hc (hAB1.trans hS1),
              extractLines_cons_of_nil hc hE1]
            rw [show (([], c :: (extractLines A').2) :
                  List (List Char) × List Char).2 ++ B
                = c :: ((extractLines A').2 ++ B) from rfl,
              extractLines_cons_of_cons hc hS1]
            simp [hAB2]
        · rw [List.cons_append,
            extractLines_cons_of_cons hc
              (show (extractLines (A' ++ B)).1
                  = l :: (ls ++ (extractLines ((extractLines A').2 ++ B)).1) from by
                rw [ih]; simp [hE1]),
            extractLines_cons_of_cons hc hE1]
          rw [ih]
          simp [hE1]

/-- Chunked feeding equals feeding the concatenation, for any run that
starts from a newline-free buffer. -/
theorem feedChunks_eq_single (chunks : List (List Char)) :
    ∀ (buffer : List Char), (∀ c ∈ buffer, c ≠ '\n') →
      feedChunks buffer chunks = feedChunks buffer [chunks.flatten] := by
  induction chunks with
  | nil =>
      intro buffer hb
      simp [feedChunks, processData, extractLines_no_nl hb]
  | cons d ds ih =>
      intro buffer hb
      have hrest := extractLines_rest_no_nl (buffer ++ d)
      simp only [feedChunks, processData]
      rw [ih _ hrest]
      simp only [feedChunks, processData, List.flatten, List.append_nil]
      rw [show buffer ++ (d ++ ds.flatten) = (buffer ++ d) ++ ds.flatten from by
          simp [List.append_assoc],
        extractLines_append (buffer ++ d) ds.flatten]
      simp [List.filterMap_append]

/-- A forwarded record is nonempty by construction. -/
theorem emitRecord_ne_nil {l r : List Char} (h : emitRecord l = some r) :
    r ≠ [] := by
  simp only [emitRecord] at h
  split at h
  · cases h
  · next hne =>
      intro hnil
      rw [Option.some.injEq] at h
      exact hne (h.trans hnil)

theorem feedChunks_records_ne_nil :
    ∀ (chunks : List (List Char)) (buffer r : List Char),
      r ∈ (feedChunks buffer chunks).1 → r ≠ []
  | [], buffer, r, hr => by simp [feedChunks] at hr
  | d :: ds, buffer, r, hr => by
      simp only [feedChunks, processData, List.mem_append] at hr
      rcases hr with hr | hr
      · obtain ⟨l, _, hl⟩ := List.mem_filterMap.mp hr
        exact emitRecord_ne_nil hl
      · exact feedChunks_records_ne_nil ds _ r hr

/-- Byte-level feeding is text-level feeding of the per-chunk
decodings. -/
theorem feedByteChunks_eq_feedChunks :
    ∀ (cs : List (List ℕ)) (buffer : List Char),
      feedByteChunks buffer cs = feedChunks buffer (cs.map utf8Decode)
  | [], _ => rfl
  | d :: ds, buffer => by
      simp only [feedByteChunks, processBytes, List.map_cons, feedChunks]
      rw [feedByteChunks_eq_feedChunks ds]

/-- C6 counterexample: the two UTF-8 bytes of the character é followed
by a newline.  Fed one byte at a time, each half of é is decoded on
its own to U+FFFD, so the chunked feed emits the record of two
replacement characters while feeding the whole stream at once emits
the record é: the record sequences differ, refuting split-invariance
over arbitrary byte splits. -/
theorem c6_counterexample_byte_split_changes_records :
    ¬ (feedByteChunks [] [[0xC3], [0xA9], [0x0A]]
        = feedByteChunks [] [[0xC3, 0xA9, 0x0A]]) := by
  decide

/-- C6 (amended): feeding a byte stream split into chunks through the
framer emits the identical record sequence, and leaves the identical
buffer, as feeding the whole stream at once, whenever the split does
not cut a UTF-8 character in half, that is, whenever the per-chunk
decode distributes over the split (every split of an ASCII stream
qualifies); and no emitted record is empty (a record empty after
trimming is dropped, not emitted).  A split inside a multi-byte
character is decoded to replacement characters chunk by chunk and can
change the emitted records. -/
theorem c6_amended_framing_char_boundary_splits (byteChunks : List (List ℕ))
    (hsplit : (byteChunks.map utf8Decode).flatten = utf8Decode byteChunks.flatten) :
    feedByteChunks [] byteChunks = feedByteChunks [] [byteChunks.flatten]
    ∧ ∀ r ∈ (feedByteChunks [] byteChunks).1, r ≠ [] := by
  constructor
  · rw [feedByteChunks_eq_feedChunks, feedByteChunks_eq_feedChunks,
      feedChunks_eq_single _ [] (by simp), hsplit]
    rfl
  · intro r hr
    rw [feedByteChunks_eq_feedChunks] at hr
    exact feedChunks_records_ne_nil _ [] r hr

/-- C6 witness: the same é stream split after the complete character
instead of inside it feeds back the identical state. -/
theorem c6_framing_witness :
    feedByteChunks [] [[0xC3, 0xA9], [0x0A]]
      = feedByteChunks [] [[0xC3, 0xA9, 0x0A]] := by
  have h := c6_amended_framing_char_boundary_splits [[0xC3, 0xA9], [0x0A]]
    (by decide)
  exact h.1

/-- With the other business rules passing and a last price on record,
the business-rule errors reduce to the deviation check alone. -/
theorem validateBusinessRules_deviation_only (cfg : IngestorConfig)
    (st : PriceMap) (t : PriceTick) (P : ℚ)
    (hlast : lookupPrice t.ric st = some P)
    (hspread : ∀ b a, t.bid = some b → t.ask = some a →
        b ≤ a ∧ b ≤ t.price ∧ t.price ≤ a)
    (hvol : ¬ (t.volume = some 0 ∧ cfg.strictMode = true)) :
    validateBusinessRules cfg st t
      = if |t.price - P| / P > cfg.maxPriceDeviation ∧ cfg.strictMode = true
        then ["Suspicious price change: deviation from last price "
            ++ String.mk (ratToChars P) ++ " to "
            ++ String.mk (ratToChars t.price)]
        else [] := by
  simp only [validateBusinessRules, hlast]
  rw [if_neg hvol]
  rcases hbid : t.bid with _ | b <;> rcases hask : t.ask with _ | a <;>
    simp only [hbid, hask]
  · simp
  · simp
  · simp
  · obtain ⟨h1, h2, h3⟩ := hspread b a hbid hask
    rw [if_neg (not_lt.mpr h1), if_neg (by push_neg; exact ⟨h2, h3⟩)]
    simp

/-- C4: once instrument X has last accepted price P on record, a
subsequent tick for X with price p that passes the structural phase,
the spread rules and the volume rule is, in strict mode, rejected
exactly when the relative deviation from P exceeds the configured
maximum, and in permissive mode always accepted (only a console
warning is issued) with the stored last price for X updated to p. -/
theorem c4_deviation_strict_vs_permissive (cfg : IngestorConfig) (st : PriceMap)
    (now : ℤ) (raw : List Char) (t : PriceTick) (P : ℚ)
    (hparse : parseTick cfg now raw = .ok t)
    (hlast : lookupPrice t.ric st = some P)
    (hspread : ∀ b a, t.bid = some b → t.ask = some a →
        b ≤ a ∧ b ≤ t.price ∧ t.price ≤ a)
    (hvol : ¬ (t.volume = some 0 ∧ cfg.strictMode = true)) :
    (cfg.strictMode = true →
      ((validateMessage cfg st now raw).1.isValid = false
        ↔ |t.price - P| / P > cfg.maxPriceDeviation))
    ∧ (cfg.strictMode = false →
        (validateMessage cfg st now raw).1.isValid = true
        ∧ lookupPrice t.ric (validateMessage cfg st now raw).2 = some t.price) := by
  have hbr := validateBusinessRules_deviation_only cfg st t P hlast hspread hvol
  constructor
  · intro hstrict
    by_cases hdev : |t.price - P| / P > cfg.maxPriceDeviation
    · have hbr2 : validateBusinessRules cfg st t
          = ["Suspicious price change: deviation from last price "
              ++ String.mk (ratToChars P) ++ " to "
              ++ String.mk (ratToChars t.price)] := by
        rw [hbr]; exact if_pos ⟨hdev, hstrict⟩
      unfold validateMessage
      rw [hparse]
      dsimp only
      rw [hbr2, if_neg (by simp)]
      simp [hdev]
    · have hbr2 : validateBusinessRules cfg st t = [] := by
        rw [hbr]; exact if_neg (fun hand => hdev hand.1)
      unfold validateMessage
      rw [hparse]
      dsimp only
      rw [hbr2, if_pos rfl]
      simp [hdev]
  · intro hperm
    have hbr2 : validateBusinessRules cfg st t = [] := by
      rw [hbr]
      exact if_neg (fun hand => by rw [hperm] at hand; exact Bool.false_ne_true hand.2)
    unfold validateMessage
    rw [hparse]
    dsimp only
    rw [hbr2, if_pos rfl]
    exact ⟨rfl, lookupPrice_setPrice_self _ _ _⟩

theorem class_ne {p : Char → Bool} {c x : Char} (h : p c = true)
    (hx : p x = false) : c ≠ x := by
  intro hc; subst hc; rw [h] at hx; cases hx

theorem ricChar_not_ws {c : Char} (h : isRicChar c = true) :
    isWsChar c = false := by
  cases hw : isWsChar c
  · rfl
  · exfalso
    have hcs : ((c = ' ' ∨ c = '\t') ∨ c = '\n') ∨ c = '\r' := by
      simpa [isWsChar] using hw
    rcases hcs with ((rfl | rfl) | rfl) | rfl <;> revert h <;> decide

theorem not_ws_ne_nl {c : Char} (h : isWsChar c = false) :
    c ≠ '\n' ∧ c ≠ '\r' :=
  ⟨class_ne (p := fun x => !isWsChar x) (by simp [h]) (by decide),
   class_ne (p := fun x => !isWsChar x) (by simp [h]) (by decide)⟩

/-- Characters of a rendered numeric field are never whitespace and
never the pipe delimiter. -/
theorem ratToChars_field_ok {q : ℚ} (h0 : 0 ≤ q) :
    ∀ c ∈ ratToChars q, isWsChar c = false ∧ c ≠ '|' := by
  intro c hc
  rcases ratToChars_mem q h0 c hc with hd | rfl
  · exact ⟨digit_not_ws hd, digit_ne hd (by decide)⟩
  · exact ⟨by decide, by decide⟩

theorem intToChars_nonneg {i : ℤ} (h : 0 ≤ i) :
    intToChars i = natChars i.natAbs := by
  unfold intToChars
  rw [if_neg (not_lt.mpr h)]

theorem parseFloatC_nil : parseFloatC [] = none := by
  simp [parseFloatC, parseSign]

/-- validateRic accepts a well-formed instrument code and uppercases
it. -/
theorem validateRic_good {ric : List Char} (h1 : 2 ≤ ric.length)
    (h2 : ric.length ≤ 20) (h3 : ∀ c ∈ ric, isRicChar c = true) :
    validateRic ric = (some (ric.map Char.toUpper), []) := by
  have htr : trimC ric = ric :=
    trimC_no_ws (fun c hc => ricChar_not_ws (h3 c hc))
  have hne : ric ≠ [] := by
    intro hnil; rw [hnil] at h1; simp at h1
  simp only [validateRic, htr]
  rw [if_neg hne, if_neg (by omega), if_neg (by omega),
    if_neg (by simp [List.all_eq_true.mpr h3])]

/-- validatePrice accepts the rendering of an in-range positive
finite-decimal price and parses it back exactly. -/
theorem validatePrice_good {p : ℚ} {e : ℕ} (fieldName : String)
    (h0 : 0 < p) (h2 : p ≤ 1000000) (he : decExp p.den = some e) :
    validatePrice (ratToChars p) fieldName = (some p, []) := by
  have h0' : 0 ≤ p := le_of_lt h0
  have htr : trimC (ratToChars p) = ratToChars p :=
    trimC_no_ws (fun c hc => (ratToChars_field_ok h0' c hc).1)
  have hparse := parseFloatC_ratToChars p h0' he
  have hne : ratToChars p ≠ [] := by
    intro hnil
    rw [hnil, parseFloatC_nil] at hparse
    cases hparse
  simp only [validatePrice, htr]
  rw [if_neg hne, hparse]
  dsimp only
  rw [if_neg (not_le.mpr h0), if_neg (not_lt.mpr h2)]

/-- validateTimestamp accepts the rendering of an in-window timestamp
and parses it back exactly. -/
theorem validateTimestamp_good (cfg : IngestorConfig) (now ts : ℤ)
    (h1 : minTimestamp ≤ ts) (h2 : ts ≤ maxTimestamp)
    (h3 : now - ts ≤ cfg.maxTimestampAge) (h4 : ts ≤ now + 60000) :
    validateTimestamp cfg now (intToChars ts) = (some ts, []) := by
  have h0 : 0 ≤ ts := le_trans (by norm_num [minTimestamp]) h1
  have hi : intToChars ts = natChars ts.natAbs := intToChars_nonneg h0
  have htr : trimC (natChars ts.natAbs) = natChars ts.natAbs :=
    trimC_no_ws (fun c hc => digit_not_ws (natChars_all_digits _ c hc))
  have hparse : parseIntC (natChars ts.natAbs) = some ts := by
    rw [parseIntC_natChars]
    congr 1
    exact Int.natAbs_of_nonneg h0
  simp only [validateTimestamp, hi, htr]
  rw [if_neg (natChars_ne_nil _), hparse]
  dsimp only
  rw [if_neg (by push_neg; exact ⟨h1, h2⟩),
    if_neg (not_lt.mpr h3), if_neg (not_lt.mpr h4)]

/-- An absent optional field (the empty wire field) is accepted as
absent. -/
theorem validateOptionalNumber_empty (fieldName : String) :
    validateOptionalNumber [] fieldName = (none, []) := by
  simp [validateOptionalNumber, trimC]

/-- validateOptionalNumber accepts the rendering of an in-range
nonnegative finite-decimal value and parses it back exactly. -/
theorem validateOptionalNumber_good {v : ℚ} {e : ℕ} (fieldName : String)
    (h0 : 0 ≤ v) (he : decExp v.den = some e)
    (hvolc : fieldName = "volume" → v ≤ 1000000000)
    (hbac : fieldName = "bid" ∨ fieldName = "ask" → v ≤ 1000000) :
    validateOptionalNumber (ratToChars v) fieldName = (some v, []) := by
  have htr : trimC (ratToChars v) = ratToChars v :=
    trimC_no_ws (fun c hc => (ratToChars_field_ok h0 c hc).1)
  have hparse := parseFloatC_ratToChars v h0 he
  have hne : ratToChars v ≠ [] := by
    intro hnil
    rw [hnil, parseFloatC_nil] at hparse
    cases hparse
  simp only [validateOptionalNumber, htr]
  rw [if_neg hne, hparse]
  dsimp only
  rw [if_neg (not_lt.mpr h0),
    if_neg (fun hand => absurd hand.2 (not_lt.mpr (hvolc hand.1))),
    if_neg (fun hand => absurd hand.2 (not_lt.mpr (hbac hand.1)))]

theorem joinC_six (sep : Char) (a b c d e f : List Char) :
    joinC sep [a, b, c, d, e, f]
      = a ++ sep :: (b ++ sep :: (c ++ sep :: (d ++ sep :: (e ++ sep :: f)))) := rfl

theorem optField_ok {o : Option ℚ} (h : ∀ v, o = some v → 0 ≤ v) :
    ∀ c ∈ optField o, isWsChar c = false ∧ c ≠ '|' := by
  rcases ho : o with _ | v
  · simp [optField]
  · exact fun c hc => ratToChars_field_ok (h v ho) c hc

/-- An optional field survives the wire round trip: present values are
parsed back exactly and the absent value stays absent. -/
theorem validateOptionalNumber_optField (o : Option ℚ) (fieldName : String)
    (h0 : ∀ v, o = some v → 0 ≤ v)
    (he : ∀ v, o = some v → (decExp v.den).isSome)
    (hvolc : ∀ v, o = some v → fieldName = "volume" → v ≤ 1000000000)
    (hbac : ∀ v, o = some v → fieldName = "bid" ∨ fieldName = "ask" →
        v ≤ 1000000) :
    validateOptionalNumber (optField o) fieldName = (o, []) := by
  rcases ho : o with _ | v
  · exact validateOptionalNumber_empty fieldName
  · obtain ⟨e, hee⟩ := Option.isSome_iff_exists.mp (he v ho)
    exact validateOptionalNumber_good fieldName (h0 v ho) hee
      (hvolc v ho) (hbac v ho)

/-- The structural phase inverts formatTick: the encoded line of any
in-range tick parses back to the same tick with the instrument
uppercased. -/
theorem parseTick_formatTick (cfg : IngestorConfig) (now : ℤ) (t : PriceTick)
    (hr1 : 2 ≤ t.ric.length) (hr2 : t.ric.length ≤ 20)
    (hr3 : ∀ c ∈ t.ric, isRicChar c = true)
    (hp1 : 0 < t.price) (hp2 : t.price ≤ 1000000)
    (hpe : (decExp t.price.den).isSome)
    (ht1 : minTimestamp ≤ t.timestamp) (ht2 : t.timestamp ≤ maxTimestamp)
    (ht3 : now - t.timestamp ≤ cfg.maxTimestampAge)
    (ht4 : t.timestamp ≤ now + 60000)
    (hv : ∀ v, t.volume = some v → 0 ≤ v ∧ v ≤ 1000000000 ∧ (decExp v.den).isSome)
    (hb : ∀ b, t.bid = some b → 0 ≤ b ∧ b ≤ 1000000 ∧ (decExp b.den).isSome)
    (ha : ∀ a, t.ask = some a → 0 ≤ a ∧ a ≤ 1000000 ∧ (decExp a.den).isSome) :
    parseTick cfg now (formatTick t)
      = .ok { ric := t.ric.map Char.toUpper, price := t.price,
              timestamp := t.timestamp, volume := t.volume, bid := t.bid,
              ask := t.ask } := by
  have hricne : t.ric ≠ [] := by
    intro hnil; rw [hnil] at hr1; simp at hr1
  have h0ts : (0 : ℤ) ≤ t.timestamp := le_trans (by norm_num [minTimestamp]) ht1
  have hok1 : ∀ c ∈ t.ric, isWsChar c = false ∧ c ≠ '|' :=
    fun c hc => ⟨ricChar_not_ws (hr3 c hc), class_ne (hr3 c hc) (by decide)⟩
  have hok2 := ratToChars_field_ok (le_of_lt hp1)
  have hok3 : ∀ c ∈ intToChars t.timestamp, isWsChar c = false ∧ c ≠ '|' := by
    rw [intToChars_nonneg h0ts]
    exact fun c hc => ⟨digit_not_ws (natChars_all_digits _ c hc),
      digit_ne (natChars_all_digits _ c hc) (by decide)⟩
  have hok4 := optField_ok (o := t.volume) (fun v hvv => (hv v hvv).1)
  have hok5 := optField_ok (o := t.bid) (fun v hvv => (hb v hvv).1)
  have hok6 := optField_ok (o := t.ask) (fun v hvv => (ha v hvv).1)
  have hshape : formatTick t
      = t.ric ++ '|' :: (ratToChars t.price ++ '|' :: (intToChars t.timestamp
        ++ '|' :: (optField t.volume ++ '|' :: (optField t.bid
        ++ '|' :: optField t.ask)))) := joinC_six '|' _ _ _ _ _ _
  have hallws : ∀ c ∈ formatTick t, isWsChar c = false := by
    intro c hc
    rw [hshape] at hc
    simp only [List.mem_append, List.mem_cons] at hc
    rcases hc with h | rfl | h | rfl | h | rfl | h | rfl | h | rfl | h
    · exact (hok1 c h).1
    · decide
    · exact (hok2 c h).1
    · decide
    · exact (hok3 c h).1
    · decide
    · exact (hok4 c h).1
    · decide
    · exact (hok5 c h).1
    · decide
    · exact (hok6 c h).1
  have hclean : trimC (stripNewlines (formatTick t)) = formatTick t := by
    rw [stripNewlines_id _ (fun c hc => not_ws_ne_nl (hallws c hc)),
      trimC_no_ws hallws]
  have hne : formatTick t ≠ [] := by
    rw [hshape]
    intro hnil
    rw [List.append_eq_nil] at hnil
    cases hnil.2
  have hsplit : splitOnC '|' (formatTick t)
      = [t.ric, ratToChars t.price, intToChars t.timestamp,
         optField t.volume, optField t.bid, optField t.ask] := by
    rw [hshape,
      splitOnC_block (fun c hc => (hok1 c hc).2),
      splitOnC_block (fun c hc => (hok2 c hc).2),
      splitOnC_block (fun c hc => (hok3 c hc).2),
      splitOnC_block (fun c hc => (hok4 c hc).2),
      splitOnC_block (fun c hc => (hok5 c hc).2),
      splitOnC_no_sep (fun c hc => (hok6 c hc).2)]
  obtain ⟨ep, hep⟩ := Option.isSome_iff_exists.mp hpe
  unfold parseTick
  rw [hclean, if_neg hne, hsplit]
  dsimp only [List.getD_cons_zero, List.getD_cons_succ, List.length_cons,
    List.length_nil]
  rw [if_pos rfl,
    validateRic_good hr1 hr2 hr3,
    validatePrice_good _ hp1 hp2 hep,
    validateTimestamp_good cfg now t.timestamp ht1 ht2 ht3 ht4,
    validateOptionalNumber_optField t.volume _ (fun v hvv => (hv v hvv).1)
      (fun v hvv => (hv v hvv).2.2) (fun v hvv _ => (hv v hvv).2.1)
      (fun v hvv hcon => by
        rcases hcon with hcon | hcon <;> exact absurd hcon (by decide)),
    validateOptionalNumber_optField t.bid _ (fun v hvv => (hb v hvv).1)
      (fun v hvv => (hb v hvv).2.2)
      (fun v hvv hcon => absurd hcon (by decide))
      (fun v hvv _ => (hb v hvv).2.1),
    validateOptionalNumber_optField t.ask _ (fun v hvv => (ha v hvv).1)
      (fun v hvv => (ha v hvv).2.2)
      (fun v hvv hcon => absurd hcon (by decide))
      (fun v hvv _ => (ha v hvv).2.1)]
  simp

unseal Rat.add Rat.mul Rat.inv Rat.sub Rat.ofScientific in
/-- C4 witness: last price 100, next tick 115 (15 percent deviation),
strict mode with the default 10 percent limit: rejected. -/
theorem c4_deviation_witness :
    (validateMessage
      { strictMode := true, maxPriceDeviation := 1 / 10, maxTimestampAge := 300000 }
      [(['X', 'X'], 100)] 1700000000000
      (String.data "XX|115|1700000000000|||")).1.isValid = false := by
  have h := c4_deviation_strict_vs_permissive
    { strictMode := true, maxPriceDeviation := 1 / 10, maxTimestampAge := 300000 }
    [(['X', 'X'], 100)] 1700000000000 (String.data "XX|115|1700000000000|||")
    { ric := ['X', 'X'], price := 115, timestamp := 1700000000000 } 100
    (by decide) (by decide)
    (by intro b a hb ha; simp at hb)
    (by simp)
  exact (h.1 rfl).mpr (by decide)

/-- With the spread rules, the deviation rule and the volume rule all
passing (the last-price entry may also be absent), the business phase
records no error. -/
theorem validateBusinessRules_pass (cfg : IngestorConfig) (st : PriceMap)
    (t' : PriceTick)
    (hspread : ∀ b a, t'.bid = some b → t'.ask = some a →
        b ≤ a ∧ b ≤ t'.price ∧ t'.price ≤ a)
    (hdev : ∀ P, lookupPrice t'.ric st = some P →
        ¬ (|t'.price - P| / P > cfg.maxPriceDeviation ∧ cfg.strictMode = true))
    (hvol : ¬ (t'.volume = some 0 ∧ cfg.strictMode = true)) :
    validateBusinessRules cfg st t' = [] := by
  rcases hlk : lookupPrice t'.ric st with _ | P
  · simp only [validateBusinessRules, hlk]
    rw [if_neg hvol]
    rcases hbid : t'.bid with _ | b <;> rcases hask : t'.ask with _ | a <;>
      simp only [hbid, hask]
    · simp
    · simp
    · simp
    · obtain ⟨h1, h2, h3⟩ := hspread b a hbid hask
      rw [if_neg (not_lt.mpr h1), if_neg (by push_neg; exact ⟨h2, h3⟩)]
      simp
  · rw [validateBusinessRules_deviation_only cfg st t' P hlk hspread hvol]
    exact if_neg (hdev P hlk)

/-- C1: the wire round trip.  For every in-range tick whose numeric
fields are finite decimals (every JavaScript number is) and which the
stateful rules accept, validateMessage applied to formatTick's output
is valid and reproduces the tick exactly: instrument uppercased, price
and timestamp equal, and each optional field present with the same
value exactly when present in the original (absent fields travel as
empty fields and decode back to absent). -/
theorem c1_encode_decode_roundtrip (cfg : IngestorConfig) (st : PriceMap)
    (now : ℤ) (t : PriceTick)
    (hr1 : 2 ≤ t.ric.length) (hr2 : t.ric.length ≤ 20)
    (hr3 : ∀ c ∈ t.ric, isRicChar c = true)
    (hp1 : 0 < t.price) (hp2 : t.price ≤ 1000000)
    (hpe : (decExp t.price.den).isSome)
    (ht1 : minTimestamp ≤ t.timestamp) (ht2 : t.timestamp ≤ maxTimestamp)
    (ht3 : now - t.timestamp ≤ cfg.maxTimestampAge)
    (ht4 : t.timestamp ≤ now + 60000)
    (hv : ∀ v, t.volume = some v → 0 ≤ v ∧ v ≤ 1000000000 ∧ (decExp v.den).isSome)
    (hb : ∀ b, t.bid = some b → 0 ≤ b ∧ b ≤ 1000000 ∧ (decExp b.den).isSome)
    (ha : ∀ a, t.ask = some a → 0 ≤ a ∧ a ≤ 1000000 ∧ (decExp a.den).isSome)
    (hba : ∀ b a, t.bid = some b → t.ask = some a →
        b ≤ a ∧ b ≤ t.price ∧ t.price ≤ a)
    (hdev : ∀ P, lookupPrice (t.ric.map Char.toUpper) st = some P →
        ¬ (|t.price - P| / P > cfg.maxPriceDeviation ∧ cfg.strictMode = true))
    (hvol0 : ¬ (t.volume = some 0 ∧ cfg.strictMode = true)) :
    (validateMessage cfg st now (formatTick t)).1
      = ⟨true,
         some ⟨t.ric.map Char.toUpper, t.price, t.timestamp, t.volume, t.bid,
           t.ask⟩,
         []⟩ := by
  have hparse := parseTick_formatTick cfg now t hr1 hr2 hr3 hp1 hp2 hpe
    ht1 ht2 ht3 ht4 hv hb ha
  have hbr : validateBusinessRules cfg st
      ⟨t.ric.map Char.toUpper, t.price, t.timestamp, t.volume, t.bid, t.ask⟩
        = [] :=
    validateBusinessRules_pass cfg st _ hba hdev hvol0
  unfold validateMessage
  rw [hparse]
  dsimp only
  rw [hbr, if_pos rfl]

unseal Rat.add Rat.mul Rat.inv Rat.sub Rat.ofScientific in
/-- C1 witness: the specification's example tick (lowercase instrument,
price 150.1 inside the spread, all optional fields present) decodes
from its own encoding, uppercased and otherwise unchanged. -/
theorem c1_roundtrip_witness :
    (validateMessage defaultConfig [] 1705323000000
      (formatTick ⟨String.data "aapl.o", 1501 / 10, 1705323000000,
        some 1000000, some 150, some 151⟩)).1
      = ⟨true,
         some ⟨String.data "AAPL.O", 1501 / 10, 1705323000000,
           some 1000000, some 150, some 151⟩,
         []⟩ := by
  have h := c1_encode_decode_roundtrip defaultConfig [] 1705323000000
    ⟨String.data "aapl.o", 1501 / 10, 1705323000000, some 1000000,
      some 150, some 151⟩
    (by decide) (by decide) (by decide) (by decide) (by decide) (by decide)
    (by decide) (by decide) (by decide) (by decide)
    (by intro v hvv; injection hvv with hinj; subst hinj
        exact ⟨by decide, by decide, by decide⟩)
    (by intro b hvv; injection hvv with hinj; subst hinj
        exact ⟨by decide, by decide, by decide⟩)
    (by intro a hvv; injection hvv with hinj; subst hinj
        exact ⟨by decide, by decide, by decide⟩)
    (by intro b a hvb hva; injection hvb with hib; injection hva with hia
        subst hib; subst hia
        exact ⟨by decide, by decide, by decide⟩)
    (by intro P hP; simp [lookupPrice] at hP)
    (by decide)
  rw [h]
  decide

end TradePulse

